import Mathlib

/-!
Shallow embedding of the ECG heart-rhythm-analysis repository
(`src/preprocessing/ecg_preprocessing.py`, `src/features/build_features.py`,
`src/ecg/ecg_filters.py`, `src/ecg/ecg_r_peaks.py`).

Python/numpy floating point values are modelled by exact rationals (`ℚ`);
the special IEEE values that numpy produces on division by zero are
modelled by the inductive type `NVal` (a finite number, `nan`, `±inf`, or a
string, the latter for pandas cells holding a label).  Fallible code is
modelled with `Except`, and `while` loops with an explicit fuel parameter
(`none` = the loop did not finish within the given fuel).
-/

namespace ECG

/-- Cell value of a numpy array / pandas column: a finite float (modelled
exactly as a rational), the IEEE specials `nan`, `inf`, `-inf` produced by
numpy on division by zero (pandas treats `nan` as the missing value), or a
string (used for the `label` column). -/
inductive NVal where
  | num (q : ℚ)
  | nan
  | inf
  | negInf
  | str (s : String)
  deriving DecidableEq, Repr

/-- Numpy float division: `x / 0` emits `nan` when `x = 0` and `±inf`
otherwise (with a runtime warning, not an exception); otherwise it is exact
division. -/
def npDiv (x y : ℚ) : NVal :=
  if y = 0 then (if x = 0 then .nan else if 0 < x then .inf else .negInf)
  else .num (x / y)

/-- `np.min` of a (nonempty) signal; on `[]` we return the junk value `0`
(the claims below never depend on the empty case). -/
def listMin (l : List ℚ) : ℚ := l.foldl min (l.headD 0)

/-- `np.max` of a (nonempty) signal; on `[]` we return the junk value `0`. -/
def listMax (l : List ℚ) : ℚ := l.foldl max (l.headD 0)

/-- `np.mean signal = sum / len` (Lean's `x / 0 = 0` stands in for the
`nan` numpy produces on an empty list; no claim depends on that case). -/
def mean (l : List ℚ) : ℚ := l.sum / l.length

/-- `np.var signal` with the population convention used by `np.std`
(denominator `len`, ddof = 0). -/
def variance (l : List ℚ) : ℚ := ((l.map (fun t => (t - mean l) ^ 2)).sum) / l.length

/-- `np.diff`: consecutive differences `l[i+1] - l[i]`. -/
def npDiff (l : List ℚ) : List ℚ := List.zipWith (fun a b => b - a) l l.tail

/-! ### `NormalizeECG.normalize_ecg` (src/preprocessing/ecg_preprocessing.py:87-101)

```python
min_val = np.min(signal)
max_val = np.max(signal)
normalized_signal = (signal - min_val) / (max_val - min_val)
return normalized_signal
```

There is no flat-signal check in the source: when `max_val == min_val` the
elementwise division is `0 / 0`, which numpy evaluates to `nan` (with a
runtime warning); the function returns normally.  `npDiv` carries exactly
that behaviour into the model. -/

/-- `NormalizeECG.normalize_ecg`, faithful to the source: the elementwise
min-max division performed unconditionally, with numpy's division-by-zero
results represented by `NVal`. -/
def normalize_ecg (signal : List ℚ) : List NVal :=
  signal.map (fun x => npDiv (x - listMin signal) (listMax signal - listMin signal))

/-- The rational value of `normalize_ecg` in the non-degenerate case
(`max > min`, so every cell of the result is the finite number
`(x - min) / (max - min)`).  `normalize_ecg_eq_normalizeQ` below proves
that `normalize_ecg signal = (normalizeQ signal).map NVal.num` whenever
`listMin signal < listMax signal`. -/
def normalizeQ (signal : List ℚ) : List ℚ :=
  signal.map (fun x => (x - listMin signal) / (listMax signal - listMin signal))

/-! ### R-R interval features (src/features/build_features.py:73-79)

```python
rri = np.diff(info['ECG_R_Peaks']) / fs * 1000  # convert to ms
rr_features = {
    'RR_mean': np.mean(rri),
    'RR_std': np.std(rri),
    'Irregularity_index': np.sum(np.abs(np.diff(rri)) > 50) / len(rri)
}
```

The R-peak indices themselves come from `nk.ecg_process` (the external
neurokit2 beat processor), so they enter the model as a parameter. -/

/-- The RR-interval list in milliseconds: `np.diff(rpeaks) / fs * 1000`. -/
def rri (rpeaks : List ℚ) (fs : ℚ) : List ℚ :=
  (npDiff rpeaks).map (fun d => d / fs * 1000)

/-- The `Irregularity_index` feature of `ECGFeatureExtractor.extract_features`:
`np.sum(np.abs(np.diff(rri)) > 50) / len(rri)`.  Note the denominator in
the source is `len(rri)` (the number of RR intervals), not the number of
consecutive differences `len(np.diff(rri)) = len(rri) - 1`. -/
def irregularityIndex (rpeaks : List ℚ) (fs : ℚ) : ℚ :=
  (((npDiff (rri rpeaks fs)).countP (fun d => decide (50 < |d|)) : ℕ) : ℚ) /
    ((rri rpeaks fs).length : ℚ)

/-! ### LF/HF ratio (src/features/build_features.py:82-89)

```python
f, Pxx = sig.welch(ecg_signal, fs=fs)
lf = np.trapz(Pxx[(f >= 0.04) & (f <= 0.15)])
hf = np.trapz(Pxx[(f >= 0.15) & (f <= 0.4)])
freq_features = { 'LF': lf, 'HF': hf,
                  'LF_HF_ratio': lf / hf if hf > 1e-10 else np.nan }
```

`sig.welch` and the trapezoidal integrals are external scipy computations;
their outputs `lf` and `hf` enter the model as parameters.  `np.nan` is the
value pandas treats as missing. -/

/-- The `LF_HF_ratio` cell of `extract_features`: `lf / hf` when
`hf > 1e-10`, and numpy's `nan` (the pandas missing value) otherwise. -/
def lfHfRatio (lf hf : ℚ) : NVal :=
  if 1 / 10 ^ 10 < hf then .num (lf / hf) else .nan

/-! ### `bandpass_filter` (src/ecg/ecg_filters.py:5-51 and the identical
`BandpassFilter.bandpass_filter`, src/preprocessing/ecg_preprocessing.py:28-74)

```python
if fs <= high_cut * 2:
    raise ValueError("Sampling frequency is too low for the selected high cutoff frequency.")
... butter ... sosfiltfilt / lfilter ...
return fsig
```

The Butterworth design and the filtering itself are scipy computations on
a validated configuration; they are abstracted as the `applyFilter`
parameter (any function of the signal).  The claims about this function
concern only the Nyquist validation. -/

/-- Error raised by the bandpass filter stage.  The source raises
`ValueError("Sampling frequency is too low ...")`; the spec calls this the
`ConfigurationError`. -/
inductive FilterError where
  | configurationError
  deriving DecidableEq, Repr

/-- `bandpass_filter`: Nyquist validation followed by the (external,
parameterised) scipy filter application.  `filter_order` and `low_cut`
only feed the external filter design, hence are unused by the model. -/
def bandpass_filter {σ : Type} (applyFilter : σ → σ) (signal : σ) (fs : ℚ)
    (filter_order : ℕ) (low_cut high_cut : ℚ) : Except FilterError σ :=
  if fs ≤ high_cut * 2 then .error .configurationError
  else .ok (applyFilter signal)

/-! ### `SegmentECG.segment_ecg` (src/preprocessing/ecg_preprocessing.py:118-139)

```python
segments = []
start = 0
end = window_size
while end <= len(signal):
    segment = signal[start:end]
    segments.append(segment)
    start += window_size - overlap_size
    end = start + window_size
return segments
```

There is no validation of `overlap_size` against `window_size` in the
source.  The loop is modelled with a fuel parameter: `segLoop` returns
`none` when the fuel runs out.  When `overlap_size < window_size` the
stride is at least 1, so `start` grows by at least 1 per iteration and
`signal.length + 2` units of fuel always suffice (`c5` proves the loop
then finishes); when `overlap_size >= window_size` and the first window
fits, `end` never grows past `len(signal)` and the Python loop runs
forever, which the model renders as `none` for every amount of fuel. -/

/-- Python list slicing `l[a:b]` for integer bounds: negative indices count
from the end, and both bounds are clamped to the list. -/
def pySlice (l : List ℚ) (a b : ℤ) : List ℚ :=
  let n : ℤ := l.length
  let a' : ℤ := if a < 0 then max (n + a) 0 else a
  let b' : ℤ := if b < 0 then max (n + b) 0 else b
  (l.take b'.toNat).drop a'.toNat

/-- One fuel-indexed execution of the `while end <= len(signal)` loop of
`segment_ecg`; `start` is an integer because the Python stride
`window_size - overlap_size` may be negative. -/
def segLoop (signal : List ℚ) (window_size overlap_size : ℤ) :
    ℕ → ℤ → List (List ℚ) → Option (List (List ℚ))
  | 0, _, _ => none
  | fuel + 1, start, segments =>
      if start + window_size ≤ (signal.length : ℤ) then
        segLoop signal window_size overlap_size fuel
          (start + (window_size - overlap_size))
          (segments ++ [pySlice signal start (start + window_size)])
      else
        some segments

/-- `SegmentECG.segment_ecg`, run with enough fuel for every terminating
configuration (stride ≥ 1 needs at most `len + 1` iterations).  A `none`
result means the source loop does not terminate. -/
def segment_ecg (signal : List ℚ) (window_size overlap_size : ℤ) :
    Option (List (List ℚ)) :=
  segLoop signal window_size overlap_size (signal.length + 2) 0 []

/-! ### `ECGFeatureExtractor.build_features` (src/features/build_features.py:25-62)

```python
for data_dict in tqdm(dataset, ...):
    ...
    try:
        feature_dict = ECGFeatureExtractor.extract_features(ecg_signal, sampling_rate)
        feature_dict['label'] = label
        features.append(feature_dict)
    except ValueError as e:
        if str(e) == "NeuroKit error: the window cannot contain more data points...":
            continue
        if str(e) == "cannot convert float NaN to integer":
            continue
        else:
            ...plot...; raise
    except ZeroDivisionError as e:
        continue
    except Exception as e:
        ...plot...; raise
features_df = pd.DataFrame(features)
features_df.drop(columns=['HRV_SDANN1', ..., 'LF', 'HF', 'LF_HF_ratio'], inplace=True)
return features_df
```

`extract_features` itself calls the external neurokit2/scipy stack, so the
per-recording extraction enters the model as a parameter
`extract : α → Except PyExc FeatRow`.  The plotting side effects change no
data and are dropped.  `pd.DataFrame.drop(columns=...)` raises `KeyError`
when any listed column is absent (in particular on the empty frame built
from an empty feature list). -/

/-- Exceptions relevant to `build_features`.  The two named `ValueError`
messages and `ZeroDivisionError` are the ones the source catches and
converts into a skip; everything else propagates. -/
inductive PyExc where
  /-- `ValueError("NeuroKit error: the window cannot contain more data points
  than the time series. Decrease 'scale'.")` -/
  | windowValueError
  /-- `ValueError("cannot convert float NaN to integer")` -/
  | nanValueError
  /-- any other `ValueError` -/
  | otherValueError
  /-- `ZeroDivisionError` -/
  | zeroDivisionError
  /-- `KeyError`, as raised by `DataFrame.drop` on a missing column -/
  | keyError
  /-- any other exception -/
  | otherError
  deriving DecidableEq, Repr

/-- Which exceptions the `try`/`except` of `build_features` turns into
`continue` (the spec's `SkippableExtractionError`). -/
def skippable : PyExc → Bool
  | .windowValueError => true
  | .nanValueError => true
  | .zeroDivisionError => true
  | _ => false

/-- A feature dictionary: insertion-ordered keys, as in a Python dict. -/
abbrev FeatRow := List (String × NVal)

/-- Keys of a feature dictionary, in insertion order. -/
def keys (d : FeatRow) : List String := d.map Prod.fst

/-- Python dict assignment `d[k] = v`: replace in place if the key exists,
append otherwise. -/
def dictInsert (d : FeatRow) (k : String) (v : NVal) : FeatRow :=
  if d.any (fun kv => kv.1 = k) then
    d.map (fun kv => if kv.1 = k then (k, v) else kv)
  else d ++ [(k, v)]

/-- One element of the `dataset` list handed to `build_features`: the
fields the loop reads (`patient_id`, `label`) plus the payload from which
the external extraction computes (`ecg_signal` with its header). -/
structure Recording (α : Type) where
  payload : α
  patient_id : String
  label : String

/-- A pandas DataFrame built from a list of row dictionaries: its columns
are the union of the row keys in order of first appearance. -/
structure DataFrame where
  cols : List String
  rows : List FeatRow
  deriving DecidableEq, Repr

/-- First-occurrence deduplication (pandas' column order for a frame built
from a list of dicts). -/
def firstDedupAux (seen : List String) : List String → List String
  | [] => []
  | a :: t =>
      if a ∈ seen then firstDedupAux seen t
      else a :: firstDedupAux (a :: seen) t

/-- First-occurrence deduplication of a list of column names. -/
def firstDedup (l : List String) : List String := firstDedupAux [] l

/-- Assemble `pd.DataFrame(features)` from the collected row dicts. -/
def mkDataFrame (rows : List FeatRow) : DataFrame :=
  ⟨firstDedup (rows.map keys).flatten, rows⟩

/-- Drop the listed keys from one row. -/
def rowDrop (d : FeatRow) (cols : List String) : FeatRow :=
  d.filter (fun kv => !(cols.contains kv.1))

/-- `DataFrame.drop(columns=cols)`: raises `KeyError` when any requested
column is absent from the frame, otherwise removes the columns. -/
def dropColumns (df : DataFrame) (cols : List String) : Except PyExc DataFrame :=
  if cols.all (fun c => df.cols.contains c) then
    .ok ⟨df.cols.filter (fun c => !(cols.contains c)), df.rows.map (fun r => rowDrop r cols)⟩
  else .error .keyError

/-- The fixed drop list of `build_features` (line 60 of the source). -/
def dropList : List String :=
  ["HRV_SDANN1", "HRV_SDNNI1", "HRV_SDANN2", "HRV_SDNNI2", "HRV_SDANN5",
   "HRV_SDNNI5", "LF", "HF", "LF_HF_ratio"]

/-- The `for data_dict in dataset: try ... except ...` loop of
`build_features`: successful extractions get their `label` column and are
collected in order; a skippable exception skips the recording; any other
exception aborts the loop (after the diagnostic plot, which changes no
data). -/
def extractLoop {α : Type} (extract : α → Except PyExc FeatRow) :
    List (Recording α) → Except PyExc (List FeatRow)
  | [] => .ok []
  | r :: rest =>
      match extract r.payload with
      | .ok d =>
          match extractLoop extract rest with
          | .ok t => .ok (dictInsert d "label" (.str r.label) :: t)
          | .error e => .error e
      | .error e => if skippable e then extractLoop extract rest else .error e

/-- `ECGFeatureExtractor.build_features`: run the extraction loop, build
the DataFrame, and drop the fixed column list. -/
def build_features {α : Type} (extract : α → Except PyExc FeatRow)
    (dataset : List (Recording α)) : Except PyExc DataFrame :=
  match extractLoop extract dataset with
  | .error e => .error e
  | .ok rows => dropColumns (mkDataFrame rows) dropList

/-- The successful rows of a batch, in original dataset order, with the
`label` column attached — the table contents before the fixed column drop. -/
def extractedRows {α : Type} (extract : α → Except PyExc FeatRow)
    (dataset : List (Recording α)) : List FeatRow :=
  dataset.filterMap (fun r =>
    match extract r.payload with
    | .ok d => some (dictInsert d "label" (.str r.label))
    | .error _ => none)

/-! ### `detect_r_peaks` (src/ecg/ecg_r_peaks.py:5-20)

```python
ecg_signal = (ecg_signal - np.mean(ecg_signal)) / np.std(ecg_signal)
peaks, _ = find_peaks(ecg_signal, height=np.max(ecg_signal)*0.5, distance=sampling_rate*0.2)
return peaks
```

`scipy.signal.find_peaks` with the `height` and `distance` arguments:
  1. raises `ValueError` when `distance < 1`;
  2. finds all interior local maxima (`_local_maxima_1d`: a strict rise
     followed, possibly after a plateau of equal samples, by a strict
     fall; a plateau's midpoint `(left + right) // 2` is reported);
  3. keeps maxima with `x[peak] >= height`;
  4. `_select_by_peak_distance`: visits the surviving peaks in order of
     decreasing height and, for each peak still kept at its visit,
     removes every other peak within `math.ceil(distance)` samples.
     (`np.argsort(kind='quicksort')` makes the visiting order among
     equal heights unspecified; the model fixes larger-index-first, and
     the properties proved below hold for any visiting order.)

Both loops of step 2 advance their index by at least one per iteration,
so `x.length` units of fuel always suffice; the fueled versions below
return the truncation-free result for every input they are called on.

The z-score standardisation divides the mean-centred signal by the
positive scalar `np.std`.  All comparisons `find_peaks` makes are
invariant under division by a positive constant, and the `height`
threshold `np.max(std)*0.5` is the same positive multiple of
`np.max(centred)*0.5`, so the returned indices coincide with `find_peaks`
on the mean-centred (rational) signal with threshold `np.max(centred)*0.5`
— which is how the model stays executable over `ℚ`.  When `np.std` is
zero the standardised signal is all-`nan`, no numpy comparison holds, and
no local maximum is found; the centred signal is then all zeros, which
likewise has no strict rise, so the model agrees (both return no peaks).
An empty signal makes `np.max` raise `ValueError` while evaluating the
`height` argument. -/

/-- Inner loop of scipy's `_local_maxima_1d`: starting from `j`, skip
samples equal to `v` while `j < n - 1`; returns the first index after the
plateau (fueled; `x.length` fuel suffices since `j` grows each step). -/
def plateauEnd (x : List ℚ) (v : ℚ) : ℕ → ℕ → ℕ
  | 0, j => j
  | fuel + 1, j =>
      if j < x.length - 1 ∧ x.getD j 0 = v then plateauEnd x v fuel (j + 1)
      else j

/-- Outer loop of `_local_maxima_1d`: scan `i` over the interior samples;
on a strict rise, find the plateau end `e`; on a strict fall at `e`,
record the plateau midpoint `(i + (e - 1)) / 2` and resume after the
plateau. -/
def localMaxAux (x : List ℚ) : ℕ → ℕ → List ℕ
  | 0, _ => []
  | fuel + 1, i =>
      if i < x.length - 1 then
        if x.getD (i - 1) 0 < x.getD i 0 then
          let e := plateauEnd x (x.getD i 0) x.length (i + 1)
          if x.getD e 0 < x.getD i 0 then
            (i + (e - 1)) / 2 :: localMaxAux x fuel (e + 1)
          else localMaxAux x fuel (i + 1)
        else localMaxAux x fuel (i + 1)
      else []

/-- `_local_maxima_1d`: all interior local maxima of `x` (plateau
midpoints), in increasing order. -/
def localMaxima (x : List ℚ) : List ℕ := localMaxAux x x.length 1

/-- The `height` condition of `find_peaks`: keep maxima with
`x[peak] >= hmin`. -/
def heightFiltered (x : List ℚ) (hmin : ℚ) : List ℕ :=
  (localMaxima x).filter (fun m => decide (hmin ≤ x.getD m 0))

/-- Ordered insertion for the priority order (stand-in for `np.argsort`
followed by reverse iteration). -/
def insOrd (r : ℕ → ℕ → Bool) (a : ℕ) : List ℕ → List ℕ
  | [] => [a]
  | b :: t => if r a b then a :: b :: t else b :: insOrd r a t

/-- Insertion sort by the comparator `r`. -/
def sortOrd (r : ℕ → ℕ → Bool) : List ℕ → List ℕ
  | [] => []
  | a :: t => insOrd r a (sortOrd r t)

/-- Visiting order of `_select_by_peak_distance`: peak list positions
sorted by decreasing peak height, larger position first among equal
heights (scipy's unstable `argsort` leaves the tie order unspecified). -/
def priorityOrder (peaks : List ℕ) (x : List ℚ) : List ℕ :=
  sortOrd (fun j k =>
      decide (x.getD (peaks.getD k 0) 0 < x.getD (peaks.getD j 0) 0) ||
        (decide (x.getD (peaks.getD j 0) 0 = x.getD (peaks.getD k 0) 0) &&
          decide (k ≤ j)))
    (List.range peaks.length)

/-- One visit of `_select_by_peak_distance`: if position `j` is still
kept, discard every other position whose peak lies within `dist` samples
(the source's two scans over the sorted peak positions stop at the first
far-enough peak on each side, which — the positions being increasing —
discards exactly these). -/
def killStep (peaks : List ℕ) (dist : ℕ) (keep : ℕ → Bool) (j : ℕ) : ℕ → Bool :=
  if keep j then
    fun k =>
      if k ≠ j ∧ Nat.dist (peaks.getD j 0) (peaks.getD k 0) < dist then false
      else keep k
  else keep

/-- The final keep mask of `_select_by_peak_distance`. -/
def keepOfDistance (peaks : List ℕ) (x : List ℚ) (dist : ℕ) : ℕ → Bool :=
  (priorityOrder peaks x).foldl (killStep peaks dist) (fun _ => true)

/-- `_select_by_peak_distance`: the surviving peaks, in increasing order. -/
def selectByDistance (peaks : List ℕ) (x : List ℚ) (dist : ℕ) : List ℕ :=
  ((List.range peaks.length).filter (fun k => keepOfDistance peaks x dist k)).map
    (fun k => peaks.getD k 0)

/-- Errors `detect_r_peaks` can raise: scipy's `distance` validation, and
`np.max` on the empty standardised signal. -/
inductive DetectError where
  | distanceTooSmall
  | emptySignal
  deriving DecidableEq, Repr

/-- `scipy.signal.find_peaks(x, height, distance)` (only the two keyword
conditions the repository uses). -/
def find_peaks (x : List ℚ) (height : ℚ) (distance : ℚ) :
    Except DetectError (List ℕ) :=
  if distance < 1 then .error .distanceTooSmall
  else .ok (selectByDistance (heightFiltered x height) x ⌈distance⌉₊)

/-- The mean-centred signal `signal - np.mean(signal)`. -/
def centered (signal : List ℚ) : List ℚ := signal.map (fun t => t - mean signal)

/-- The z-score standardised signal
`(signal - np.mean(signal)) / np.std(signal)` of the source, over the
reals since `np.std` is a square root.  (With `np.std = 0` numpy yields an
all-`nan` array; Lean's `x / 0 = 0` renders it all-zero instead — in both
readings no strict local maximum exists and `detect_r_peaks` returns no
peaks, so the theorems below are unaffected.) -/
noncomputable def stdSignal (signal : List ℚ) : List ℝ :=
  signal.map (fun t : ℚ =>
    ((t : ℝ) - ((mean signal : ℚ) : ℝ)) / Real.sqrt ((variance signal : ℚ) : ℝ))

/-- `detect_r_peaks`, via the positive-scaling reduction described above:
`find_peaks` on the mean-centred signal with height
`np.max(centred) * 0.5` and distance `fs * 0.2`. -/
def detect_r_peaks (signal : List ℚ) (fs : ℚ) : Except DetectError (List ℕ) :=
  if signal.isEmpty then .error .emptySignal
  else find_peaks (centered signal) (listMax (centered signal) * (1 / 2)) (fs * (1 / 5))

/-! ## Helper lemmas -/

/-- Folding `min` over a list of copies of the starting value is the
identity. -/
lemma foldl_min_of_const (c : ℚ) : ∀ (l : List ℚ), (∀ x ∈ l, x = c) → l.foldl min c = c
  | [], _ => rfl
  | a :: t, h => by
      have ha : a = c := h a (List.mem_cons_self a t)
      have := foldl_min_of_const c t (fun x hx => h x (List.mem_cons_of_mem a hx))
      simpa [ha] using this

/-- Folding `max` over a list of copies of the starting value is the
identity. -/
lemma foldl_max_of_const (c : ℚ) : ∀ (l : List ℚ), (∀ x ∈ l, x = c) → l.foldl max c = c
  | [], _ => rfl
  | a :: t, h => by
      have ha : a = c := h a (List.mem_cons_self a t)
      have := foldl_max_of_const c t (fun x hx => h x (List.mem_cons_of_mem a hx))
      simpa [ha] using this

/-- `np.min` of a constant signal is that constant. -/
lemma listMin_of_const (l : List ℚ) (c : ℚ) (hne : l ≠ []) (h : ∀ x ∈ l, x = c) :
    listMin l = c := by
  match l, hne with
  | a :: t, _ =>
      have ha : a = c := h a (List.mem_cons_self a t)
      simpa [listMin, ha] using foldl_min_of_const c (a :: t) h

/-- `np.max` of a constant signal is that constant. -/
lemma listMax_of_const (l : List ℚ) (c : ℚ) (hne : l ≠ []) (h : ∀ x ∈ l, x = c) :
    listMax l = c := by
  match l, hne with
  | a :: t, _ =>
      have ha : a = c := h a (List.mem_cons_self a t)
      simpa [listMax, ha] using foldl_max_of_const c (a :: t) h

/-- A monotone map commutes with a `min`-fold. -/
lemma foldl_min_map (f : ℚ → ℚ) (hf : Monotone f) :
    ∀ (l : List ℚ) (a : ℚ), (l.map f).foldl min (f a) = f (l.foldl min a)
  | [], _ => rfl
  | b :: t, a => by
      have : min (f a) (f b) = f (min a b) := (hf.map_min).symm
      simpa [this] using foldl_min_map f hf t (min a b)

/-- A monotone map commutes with a `max`-fold. -/
lemma foldl_max_map (f : ℚ → ℚ) (hf : Monotone f) :
    ∀ (l : List ℚ) (a : ℚ), (l.map f).foldl max (f a) = f (l.foldl max a)
  | [], _ => rfl
  | b :: t, a => by
      have : max (f a) (f b) = f (max a b) := (hf.map_max).symm
      simpa [this] using foldl_max_map f hf t (max a b)

/-- A monotone map commutes with `np.min` on a nonempty list. -/
lemma listMin_map (f : ℚ → ℚ) (hf : Monotone f) (l : List ℚ) (hne : l ≠ []) :
    listMin (l.map f) = f (listMin l) := by
  match l, hne with
  | a :: t, _ => simpa [listMin] using foldl_min_map f hf (a :: t) a

/-- A monotone map commutes with `np.max` on a nonempty list. -/
lemma listMax_map (f : ℚ → ℚ) (hf : Monotone f) (l : List ℚ) (hne : l ≠ []) :
    listMax (l.map f) = f (listMax l) := by
  match l, hne with
  | a :: t, _ => simpa [listMax] using foldl_max_map f hf (a :: t) a

/-- On a signal with `min < max`, every cell of `normalize_ecg` is the
finite rational of `normalizeQ`. -/
lemma normalize_ecg_eq_normalizeQ (signal : List ℚ) (h : listMin signal < listMax signal) :
    normalize_ecg signal = (normalizeQ signal).map NVal.num := by
  have hd : listMax signal - listMin signal ≠ 0 := sub_ne_zero.mpr (ne_of_gt h)
  simp only [normalize_ecg, normalizeQ, List.map_map]
  exact List.map_congr_left fun x _ => by simp [npDiv, hd, Function.comp]

/-- A list whose minimum is `0` and maximum is `1` is a fixed point of the
min-max rescale. -/
lemma normalizeQ_of_min_max (l : List ℚ) (hmin : listMin l = 0) (hmax : listMax l = 1) :
    normalizeQ l = l := by
  unfold normalizeQ
  rw [hmin, hmax]
  simp

/-! ## Claim theorems -/

/-- **C6** (confirmed).  `bandpass_filter` fails with the
`ConfigurationError` (the source's `ValueError`) exactly when
`fs <= 2 * high_cut`, and otherwise returns the filtered signal. -/
theorem c6_nyquist_validation {σ : Type} (applyFilter : σ → σ) (signal : σ) (fs : ℚ)
    (filter_order : ℕ) (low_cut high_cut : ℚ) :
    (bandpass_filter applyFilter signal fs filter_order low_cut high_cut =
        .error .configurationError ↔ fs ≤ 2 * high_cut)
    ∧ (2 * high_cut < fs →
        bandpass_filter applyFilter signal fs filter_order low_cut high_cut =
          .ok (applyFilter signal)) := by
  unfold bandpass_filter
  by_cases h : fs ≤ high_cut * 2
  · rw [if_pos h]
    exact ⟨⟨fun _ => by linarith, fun _ => rfl⟩, fun hlt => absurd h (by linarith)⟩
  · rw [if_neg h]
    exact ⟨⟨fun hc => by simp at hc, fun hc => absurd (show fs ≤ high_cut * 2 by linarith) h⟩,
      fun _ => rfl⟩

/-- **C6 witness**: `fs = 50, high_cut = 40` raises; `fs = 200,
high_cut = 40` succeeds. -/
theorem c6_witness :
    bandpass_filter (id : List ℚ → List ℚ) [1, 2, 3] 50 6 (1 / 2) 40 =
        .error .configurationError
    ∧ bandpass_filter (id : List ℚ → List ℚ) [1, 2, 3] 200 6 (1 / 2) 40 = .ok [1, 2, 3] :=
  ⟨(c6_nyquist_validation id [1, 2, 3] 50 6 (1 / 2) 40).1.mpr (by norm_num),
   (c6_nyquist_validation id [1, 2, 3] 200 6 (1 / 2) 40).2 (by norm_num)⟩

/-- **C7** (confirmed).  `LF_HF_ratio` is `LF / HF` when `HF > 1e-10` and
otherwise the `nan` missing value — which is not `0`, not an infinity. -/
theorem c7_lf_hf_missing (lf hf : ℚ) :
    (1 / 10 ^ 10 < hf → lfHfRatio lf hf = .num (lf / hf))
    ∧ (hf ≤ 1 / 10 ^ 10 →
        lfHfRatio lf hf = .nan
        ∧ NVal.nan ≠ NVal.num 0 ∧ NVal.nan ≠ NVal.inf ∧ NVal.nan ≠ NVal.negInf) := by
  unfold lfHfRatio
  refine ⟨fun h => by rw [if_pos h], fun h => ⟨by rw [if_neg (not_lt.mpr h)], ?_, ?_, ?_⟩⟩
  all_goals simp

/-- **C7 witness**: `HF = 1` yields the finite ratio, `HF = 0` yields the
missing value. -/
theorem c7_witness : lfHfRatio 3 1 = .num (3 / 1) ∧ lfHfRatio 3 0 = .nan :=
  ⟨(c7_lf_hf_missing 3 1).1 (by norm_num), ((c7_lf_hf_missing 3 0).2 (by norm_num)).1⟩

/-- **C1 counterexample**.  At R-peak indices `[100, 300, 520, 700]` with
`fs = 200` the RR intervals in ms are `[1000, 1100, 900]` as the claim
says, but `Irregularity_index` is `2/3` (the source divides the count of
large differences by `len(rri) = 3`), not the claimed `2/2 = 1.0`. -/
theorem c1_counterexample :
    rri [100, 300, 520, 700] 200 = [1000, 1100, 900]
    ∧ irregularityIndex [100, 300, 520, 700] 200 = 2 / 3
    ∧ (2 / 3 : ℚ) ≠ 1 :=
  ⟨by norm_num [rri, npDiff], by norm_num [irregularityIndex, rri, npDiff], by norm_num⟩

/-- **C1** (amended).  With at least three R-peaks, `extract_features`
computes `Irregularity_index` as the number of consecutive RR-interval
differences exceeding 50 ms in absolute value divided by the number of RR
intervals (`len(rri)`, which is one less than the number of R-peaks) —
not by the number of differences. -/
theorem c1_irregularity_denominator (rpeaks : List ℚ) (fs : ℚ) (h : 3 ≤ rpeaks.length) :
    irregularityIndex rpeaks fs =
      ((npDiff (rri rpeaks fs)).countP (fun d => decide (50 < |d|)) : ℚ) /
        ((rpeaks.length : ℚ) - 1) := by
  have hlen : (rri rpeaks fs).length = rpeaks.length - 1 := by
    simp [rri, npDiff, List.length_zipWith]
  have hcast : (((rri rpeaks fs).length : ℕ) : ℚ) = (rpeaks.length : ℚ) - 1 := by
    rw [hlen]
    have h1 : 1 ≤ rpeaks.length := by omega
    push_cast [Nat.cast_sub h1]
    ring
  unfold irregularityIndex
  rw [hcast]

/-- **C1 witness**: the amended denominator rule at the concrete input of
the claim. -/
theorem c1_witness :
    irregularityIndex [100, 300, 520, 700] 200 =
      ((npDiff (rri [100, 300, 520, 700] 200)).countP (fun d => decide (50 < |d|)) : ℚ) /
        ((([100, 300, 520, 700] : List ℚ).length : ℚ) - 1) :=
  c1_irregularity_denominator [100, 300, 520, 700] 200 (by norm_num)

/-- **C2 counterexample**.  On the flat signal `[5, 5, 5]` the source
`normalize_ecg` returns normally with a `nan`-filled array (numpy's
`0/0`); it raises nothing — there is no flat-signal check in the code, so
no `DegenerateSignalError` exists to be raised. -/
theorem c2_counterexample :
    normalize_ecg [5, 5, 5] = List.replicate 3 NVal.nan := by
  norm_num [normalize_ecg, npDiv, listMin, listMax, List.replicate]

/-- **C2** (amended).  For every nonempty constant signal, `normalize_ecg`
performs the division by `max - min = 0` anyway and returns a `nan`-filled
signal of the same length, raising no error. -/
theorem c2_flat_normalize_nan (signal : List ℚ) (c : ℚ) (hne : signal ≠ [])
    (hconst : ∀ x ∈ signal, x = c) :
    normalize_ecg signal = List.replicate signal.length NVal.nan := by
  have hmin : listMin signal = c := listMin_of_const signal c hne hconst
  have hmax : listMax signal = c := listMax_of_const signal c hne hconst
  rw [List.eq_replicate_iff]
  refine ⟨by simp [normalize_ecg], fun b hb => ?_⟩
  rcases List.mem_map.mp hb with ⟨x, hx, hxb⟩
  have hxc : x = c := hconst x hx
  simp [← hxb, hmin, hmax, hxc, npDiv]

/-- **C2 witness**: the amended behaviour at the flat signal `[5, 5, 5]`. -/
theorem c2_witness :
    normalize_ecg [5, 5, 5] = List.replicate ([5, 5, 5] : List ℚ).length NVal.nan :=
  c2_flat_normalize_nan [5, 5, 5] 5 (by simp) (by decide)

/-- **C8** (confirmed).  For every signal with `max > min`, applying
`normalize_ecg` to the (rational-valued) output of normalization
reproduces that output exactly: `normalize(normalize s) = normalize s`
(exactly, hence in particular within floating-point tolerance). -/
theorem c8_normalize_idempotent (signal : List ℚ)
    (h : listMin signal < listMax signal) :
    normalize_ecg (normalizeQ signal) = normalize_ecg signal
    ∧ normalize_ecg signal = (normalizeQ signal).map NVal.num := by
  have hne : signal ≠ [] := by
    intro hnil
    rw [hnil] at h
    simp [listMin, listMax] at h
  have hd : (0 : ℚ) < listMax signal - listMin signal := sub_pos.mpr h
  have hmono : Monotone (fun x => (x - listMin signal) / (listMax signal - listMin signal)) :=
    fun a b hab => div_le_div_of_nonneg_right (sub_le_sub_right hab _) hd.le
  have hQ : normalizeQ signal =
      signal.map (fun x => (x - listMin signal) / (listMax signal - listMin signal)) := rfl
  have hmin' : listMin (normalizeQ signal) = 0 := by
    rw [hQ, listMin_map _ hmono signal hne]
    simp
  have hmax' : listMax (normalizeQ signal) = 1 := by
    rw [hQ, listMax_map _ hmono signal hne]
    exact div_self (ne_of_gt hd)
  have h01 : listMin (normalizeQ signal) < listMax (normalizeQ signal) := by
    rw [hmin', hmax']; norm_num
  have hQQ : normalizeQ (normalizeQ signal) = normalizeQ signal :=
    normalizeQ_of_min_max _ hmin' hmax'
  refine ⟨?_, normalize_ecg_eq_normalizeQ signal h⟩
  rw [normalize_ecg_eq_normalizeQ (normalizeQ signal) h01, hQQ,
    normalize_ecg_eq_normalizeQ signal h]

/-- **C8 witness**: idempotence at the non-degenerate signal `[0, 2]`. -/
theorem c8_witness :
    normalize_ecg (normalizeQ [0, 2]) = normalize_ecg [0, 2]
    ∧ normalize_ecg [0, 2] = (normalizeQ [0, 2]).map NVal.num :=
  c8_normalize_idempotent [0, 2] (by decide)

/-- Python slicing at nonnegative bounds is drop-then-take. -/
lemma pySlice_of_nonneg (l : List ℚ) (a b : ℤ) (ha : 0 ≤ a) (hb : 0 ≤ b) :
    pySlice l a b = (l.drop a.toNat).take (b.toNat - a.toNat) := by
  simp only [pySlice]
  rw [if_neg (not_lt.mpr ha), if_neg (not_lt.mpr hb), List.drop_take]

/-- Execution of the `segment_ecg` loop with a positive stride: starting
at a nonnegative offset whose remaining iteration count is `m`, any fuel
above `m` finishes the loop and appends exactly the `m` windows at stride
`W - O`. -/
lemma segLoop_run (sig : List ℚ) (W O : ℤ) (hOW : O < W) :
    ∀ (m fuel : ℕ) (start : ℤ) (acc : List (List ℚ)), 0 ≤ start →
      (if start + W ≤ (sig.length : ℤ)
        then ((sig.length : ℤ) - W - start).toNat / (W - O).toNat + 1 else 0) = m →
      m < fuel →
      segLoop sig W O fuel start acc =
        some (acc ++ (List.range m).map
          (fun k : ℕ =>
            pySlice sig (start + (k : ℤ) * (W - O)) (start + (k : ℤ) * (W - O) + W))) := by
  intro m
  induction m with
  | zero =>
      intro fuel start acc _ hcnt hfuel
      have hc : ¬ (start + W ≤ (sig.length : ℤ)) := by
        intro hc
        rw [if_pos hc] at hcnt
        exact Nat.succ_ne_zero _ hcnt
      match fuel, hfuel with
      | f + 1, _ =>
          simp only [segLoop]
          rw [if_neg hc]
          simp
  | succ m ih =>
      intro fuel start acc h0 hcnt hfuel
      have hc : start + W ≤ (sig.length : ℤ) := by
        by_contra hc
        rw [if_neg hc] at hcnt
        omega
      rw [if_pos hc] at hcnt
      have hsn : 0 < (W - O).toNat := by omega
      have hm : ((sig.length : ℤ) - W - start).toNat / (W - O).toNat = m :=
        Nat.add_right_cancel hcnt
      match fuel, hfuel with
      | f + 1, hfuel =>
          simp only [segLoop]
          rw [if_pos hc]
          have hcnt' : (if start + (W - O) + W ≤ (sig.length : ℤ)
              then ((sig.length : ℤ) - W - (start + (W - O))).toNat / (W - O).toNat + 1
              else 0) = m := by
            by_cases hc2 : start + (W - O) + W ≤ (sig.length : ℤ)
            · rw [if_pos hc2]
              have e1 : ((sig.length : ℤ) - W - start).toNat =
                  ((sig.length : ℤ) - W - (start + (W - O))).toNat + (W - O).toNat := by
                omega
              rw [e1, Nat.add_div_right _ hsn] at hm
              omega
            · rw [if_neg hc2]
              have hlt : ((sig.length : ℤ) - W - start).toNat < (W - O).toNat := by omega
              rw [Nat.div_eq_of_lt hlt] at hm
              omega
          rw [ih f (start + (W - O)) (acc ++ [pySlice sig start (start + W)])
            (by omega) hcnt' (by omega)]
          congr 1
          rw [List.range_succ_eq_map, List.map_cons, List.map_map]
          rw [List.map_congr_left (f := fun k : ℕ =>
              pySlice sig (start + (W - O) + (k : ℤ) * (W - O))
                (start + (W - O) + (k : ℤ) * (W - O) + W)) (fun k _ => by
            show pySlice sig (start + (W - O) + (k : ℤ) * (W - O))
                (start + (W - O) + (k : ℤ) * (W - O) + W) =
              pySlice sig (start + ((Nat.succ k : ℕ) : ℤ) * (W - O))
                (start + ((Nat.succ k : ℕ) : ℤ) * (W - O) + W)
            have harg : start + (W - O) + (k : ℤ) * (W - O) =
                start + ((Nat.succ k : ℕ) : ℤ) * (W - O) := by
              push_cast
              ring
            rw [harg])]
          have e0 : pySlice sig (start + ((0 : ℕ) : ℤ) * (W - O))
              (start + ((0 : ℕ) : ℤ) * (W - O) + W) = pySlice sig start (start + W) := by
            norm_num
          rw [e0]
          simp

/-- **C5** (confirmed).  With `0 ≤ overlap < window`, `segment_ecg`
terminates and emits exactly `(L - W) / (W - O) + 1` segments when
`W ≤ L` and none when `W > L`; the `k`-th segment is the full window of
`W` samples starting `k * (W - O)` samples into the signal (so the first
starts at index 0 and consecutive starts are one stride apart), and every
emitted segment has exactly `W` samples — the trailing partial window is
dropped. -/
theorem c5_segment_count (sig : List ℚ) (W O : ℤ) (hO : 0 ≤ O) (hOW : O < W) :
    ∃ segs, segment_ecg sig W O = some segs
      ∧ segs.length =
          (if W.toNat ≤ sig.length then (sig.length - W.toNat) / (W - O).toNat + 1 else 0)
      ∧ segs = (List.range segs.length).map
          (fun k => (sig.drop (k * (W - O).toNat)).take W.toNat)
      ∧ ∀ seg ∈ segs, seg.length = W.toNat := by
  have hsn : 0 < (W - O).toNat := by omega
  set N : ℕ :=
    (if W.toNat ≤ sig.length then (sig.length - W.toNat) / (W - O).toNat + 1 else 0)
    with hN
  have hcnt0 : (if (0 : ℤ) + W ≤ (sig.length : ℤ)
      then ((sig.length : ℤ) - W - 0).toNat / (W - O).toNat + 1 else 0) = N := by
    rw [hN]
    by_cases hc : (0 : ℤ) + W ≤ (sig.length : ℤ)
    · rw [if_pos hc, if_pos (by omega)]
      have : ((sig.length : ℤ) - W - 0).toNat = sig.length - W.toNat := by omega
      rw [this]
    · rw [if_neg hc, if_neg (by omega)]
  have hfuel : N < sig.length + 2 := by
    rw [hN]
    split
    · have := Nat.div_le_self (sig.length - W.toNat) (W - O).toNat
      omega
    · omega
  have hrun := segLoop_run sig W O hOW N (sig.length + 2) 0 [] le_rfl hcnt0 hfuel
  rw [List.nil_append] at hrun
  have hslice : ∀ k : ℕ,
      pySlice sig ((0 : ℤ) + (k : ℤ) * (W - O)) ((0 : ℤ) + (k : ℤ) * (W - O) + W) =
        (sig.drop (k * (W - O).toNat)).take W.toNat := by
    intro k
    have t1 : (((W - O).toNat : ℕ) : ℤ) = W - O := Int.toNat_of_nonneg (by omega)
    have t2 : ((W.toNat : ℕ) : ℤ) = W := Int.toNat_of_nonneg (by omega)
    have h1 : (0 : ℤ) + (k : ℤ) * (W - O) = ((k * (W - O).toNat : ℕ) : ℤ) := by
      push_cast [t1]
      ring
    have h2 : (0 : ℤ) + (k : ℤ) * (W - O) + W = ((k * (W - O).toNat + W.toNat : ℕ) : ℤ) := by
      push_cast [t1, t2]
      ring
    rw [h2, h1, pySlice_of_nonneg _ _ _ (Int.natCast_nonneg _) (Int.natCast_nonneg _)]
    rw [Int.toNat_natCast, Int.toNat_natCast]
    congr 1
    omega
  refine ⟨(List.range N).map
      (fun k : ℕ => pySlice sig ((0 : ℤ) + (k : ℤ) * (W - O)) ((0 : ℤ) + (k : ℤ) * (W - O) + W)),
    by rw [segment_ecg, hrun], by simp, ?_, ?_⟩
  · rw [List.length_map, List.length_range]
    exact List.map_congr_left (fun k _ => hslice k)
  · intro seg hseg
    rcases List.mem_map.mp hseg with ⟨k, hk, hkeq⟩
    rw [List.mem_range] at hk
    rw [← hkeq, hslice k, List.length_take, List.length_drop]
    have hWle : W.toNat ≤ sig.length := by
      rw [hN] at hk
      by_contra hgt
      rw [if_neg hgt] at hk
      omega
    have hkN : k ≤ (sig.length - W.toNat) / (W - O).toNat := by
      rw [hN, if_pos hWle] at hk
      omega
    have hmul : k * (W - O).toNat ≤ sig.length - W.toNat :=
      (Nat.le_div_iff_mul_le hsn).mp hkN
    omega

/-- **C5 witness**: the segment characterisation at a length-10 signal
with window 3 and overlap 1 (stride 2, 4 segments). -/
theorem c5_witness :
    ∃ segs, segment_ecg ((List.range 10).map (fun n => (n : ℚ))) 3 1 = some segs
      ∧ segs.length =
          (if (3 : ℤ).toNat ≤ ((List.range 10).map (fun n => (n : ℚ))).length
            then (((List.range 10).map (fun n => (n : ℚ))).length - (3 : ℤ).toNat) /
              ((3 : ℤ) - 1).toNat + 1 else 0)
      ∧ segs = (List.range segs.length).map
          (fun k => (((List.range 10).map (fun n => (n : ℚ))).drop (k * ((3 : ℤ) - 1).toNat)).take
            (3 : ℤ).toNat)
      ∧ ∀ seg ∈ segs, seg.length = (3 : ℤ).toNat :=
  c5_segment_count ((List.range 10).map (fun n => (n : ℚ))) 3 1 (by norm_num) (by norm_num)

/-- **C3 counterexample**.  With `overlap_size = 7 ≥ window_size = 5` on a
signal of length 3, `segment_ecg` returns the empty segment list
normally; it performs no validation and raises no `ConfigurationError`
(the source has no raise statement at all). -/
theorem c3_counterexample : segment_ecg [1, 2, 3] 5 7 = some [] := rfl

/-- **C3** (amended).  The segmenter performs no validation of
`overlap_size` against `window_size`: with `overlap_size ≥ window_size`
it returns the empty list normally when `window_size > len(signal)`, and
when `window_size ≤ len(signal)` its `while` loop never terminates
(it exhausts every fuel bound), instead of failing with a
`ConfigurationError`. -/
theorem c3_segment_no_validation (sig : List ℚ) (W O : ℤ) (h : W ≤ O) :
    ((sig.length : ℤ) < W → segment_ecg sig W O = some [])
    ∧ (W ≤ (sig.length : ℤ) →
        ∀ (fuel : ℕ) (start : ℤ) (acc : List (List ℚ)), start ≤ 0 →
          segLoop sig W O fuel start acc = none) := by
  constructor
  · intro hlt
    unfold segment_ecg
    simp only [segLoop]
    rw [if_neg (by omega)]
  · intro hle fuel
    induction fuel with
    | zero => intro start acc _; rfl
    | succ f ih =>
        intro start acc h0
        simp only [segLoop]
        rw [if_pos (by omega)]
        exact ih _ _ (by omega)

/-- **C3 witness**: with window 2 ≤ length 3 and overlap 3, the loop is
still unfinished after 5 iterations of fuel (and, by the theorem, after
any amount). -/
theorem c3_witness : segLoop [1, 2, 3] 2 3 5 0 [] = none :=
  (c3_segment_no_validation [1, 2, 3] 2 3 (by norm_num)).2 (by norm_num) 5 0 [] le_rfl

/-! ## Batch semantics of `build_features` (C4, C10) -/

/-- The per-recording outcome hypothesis of the batch-skip property: a
successful extraction whose dictionary carries the given columns, or a
skippable exception. -/
def okKeysContain (res : Except PyExc FeatRow) (cols : List String) : Prop :=
  match res with
  | .ok d => ∀ c ∈ cols, c ∈ keys d
  | .error e => skippable e = true

instance (res : Except PyExc FeatRow) (cols : List String) :
    Decidable (okKeysContain res cols) :=
  match res with
  | .ok d => inferInstanceAs (Decidable (∀ c ∈ cols, c ∈ keys d))
  | .error e => inferInstanceAs (Decidable (skippable e = true))

/-- The all-skipped hypothesis of C10: every recording's extraction fails
with a skippable exception. -/
def allSkipped (res : Except PyExc FeatRow) : Prop :=
  match res with
  | .ok _ => False
  | .error e => skippable e = true

instance (res : Except PyExc FeatRow) : Decidable (allSkipped res) :=
  match res with
  | .ok _ => inferInstanceAs (Decidable False)
  | .error e => inferInstanceAs (Decidable (skippable e = true))

/-- Membership in a first-occurrence dedup. -/
lemma mem_firstDedupAux (x : String) :
    ∀ (l seen : List String), x ∈ l → x ∉ seen → x ∈ firstDedupAux seen l
  | [], _, hx, _ => by cases hx
  | a :: t, seen, hx, hseen => by
      unfold firstDedupAux
      by_cases ha : a ∈ seen
      · rw [if_pos ha]
        rcases List.mem_cons.mp hx with rfl | hxt
        · exact absurd ha hseen
        · exact mem_firstDedupAux x t seen hxt hseen
      · rw [if_neg ha]
        rcases List.mem_cons.mp hx with rfl | hxt
        · exact List.mem_cons_self _ _
        · by_cases hxa : x = a
          · exact hxa ▸ List.mem_cons_self _ _
          · exact List.mem_cons_of_mem a
              (mem_firstDedupAux x t (a :: seen)
                hxt (by simp [hxa, hseen]))

/-- Membership in `firstDedup`. -/
lemma mem_firstDedup (x : String) (l : List String) (hx : x ∈ l) : x ∈ firstDedup l :=
  mem_firstDedupAux x l [] hx (by simp)

/-- `dictInsert` never removes a key. -/
lemma keys_dictInsert (d : FeatRow) (k : String) (v : NVal) (c : String)
    (hc : c ∈ keys d) : c ∈ keys (dictInsert d k v) := by
  unfold dictInsert
  by_cases h : d.any (fun kv => kv.1 = k)
  · rw [if_pos h]
    rcases List.mem_map.mp hc with ⟨kv, hkv, hkvc⟩
    apply List.mem_map.mpr
    refine ⟨if kv.1 = k then (k, v) else kv, List.mem_map_of_mem _ hkv, ?_⟩
    by_cases hk : kv.1 = k
    · rw [if_pos hk]
      rw [← hkvc, hk]
    · rw [if_neg hk]
      exact hkvc
  · rw [if_neg h]
    unfold keys
    rw [List.map_append]
    exact List.mem_append_left _ hc

/-- When every recording either extracts successfully or fails skippably,
the `try`/`except` loop of `build_features` returns exactly the
successful rows (labelled, in order). -/
lemma extractLoop_of_handled {α : Type} (extract : α → Except PyExc FeatRow) :
    ∀ (dataset : List (Recording α)),
      (∀ r ∈ dataset, okKeysContain (extract r.payload) dropList) →
      extractLoop extract dataset = .ok (extractedRows extract dataset)
  | [], _ => rfl
  | r :: rest, h => by
      have hr := h r (List.mem_cons_self r rest)
      have hrest := extractLoop_of_handled extract rest
        (fun r' hr' => h r' (List.mem_cons_of_mem r hr'))
      cases hx : extract r.payload with
      | ok d =>
          simp only [extractLoop, hx, hrest]
          unfold extractedRows
          simp [List.filterMap_cons, hx]
      | error e =>
          have hskip : skippable e = true := by rw [hx] at hr; exact hr
          simp only [extractLoop, hx, hskip, if_true]
          rw [hrest]
          unfold extractedRows
          simp [List.filterMap_cons, hx]

/-- **C4** (confirmed).  If every recording in the batch either extracts
successfully (with the standard feature schema, which contains the fixed
drop columns) or fails with a skippable cause, and at least one succeeds,
then `build_features` returns normally — no exception escapes — and the
rows of the returned table are exactly the successful recordings'
(labelled, column-dropped) feature dictionaries in their original
relative order; skipped recordings are omitted. -/
theorem c4_batch_skip {α : Type} (extract : α → Except PyExc FeatRow)
    (dataset : List (Recording α))
    (h1 : ∀ r ∈ dataset, okKeysContain (extract r.payload) dropList)
    (h2 : ∃ r ∈ dataset, (extract r.payload).isOk = true) :
    ∃ df, build_features extract dataset = .ok df
      ∧ df.rows = (extractedRows extract dataset).map (fun d => rowDrop d dropList) := by
  have hloop := extractLoop_of_handled extract dataset h1
  have hbf : build_features extract dataset =
      dropColumns (mkDataFrame (extractedRows extract dataset)) dropList := by
    unfold build_features
    rw [hloop]
  -- the drop succeeds: every drop column occurs in some successful row
  obtain ⟨r0, hr0, hok⟩ := h2
  obtain ⟨d0, hd0⟩ : ∃ d0, extract r0.payload = .ok d0 := by
    cases hx : extract r0.payload with
    | ok d => exact ⟨d, rfl⟩
    | error e => rw [hx] at hok; cases hok
  have hrow0 : dictInsert d0 "label" (.str r0.label) ∈ extractedRows extract dataset := by
    apply List.mem_filterMap.mpr
    exact ⟨r0, hr0, by rw [hd0]⟩
  have hcols : ∀ c ∈ dropList, c ∈ (mkDataFrame (extractedRows extract dataset)).cols := by
    intro c hc
    have hck : c ∈ keys d0 := by
      have hh := h1 r0 hr0
      rw [hd0] at hh
      exact hh c hc
    have hck' : c ∈ keys (dictInsert d0 "label" (.str r0.label)) :=
      keys_dictInsert d0 _ _ c hck
    apply mem_firstDedup
    apply List.mem_flatten.mpr
    exact ⟨keys (dictInsert d0 "label" (.str r0.label)),
      List.mem_map_of_mem _ hrow0, hck'⟩
  have hall : dropList.all
      (fun c => (mkDataFrame (extractedRows extract dataset)).cols.contains c) = true := by
    rw [List.all_eq_true]
    intro c hc
    simpa using hcols c hc
  rw [hbf]
  unfold dropColumns
  rw [if_pos hall]
  exact ⟨_, rfl, rfl⟩

/-- Extraction map for the C4/C10 witnesses: recording 3 hits a
`ZeroDivisionError`, the rest produce a full-schema feature row. -/
def c4Extract (n : ℕ) : Except PyExc FeatRow :=
  if n = 3 then .error .zeroDivisionError
  else .ok (dropList.map (fun c => (c, NVal.num 0)) ++ [("RR_mean", NVal.num 1)])

/-- Batch of 5 recordings for the C4 witness. -/
def c4Dataset : List (Recording ℕ) :=
  [⟨1, "p1", "N"⟩, ⟨2, "p2", "A"⟩, ⟨3, "p3", "O"⟩, ⟨4, "p4", "N"⟩, ⟨5, "p5", "A"⟩]

/-- **C4 witness**: a batch of 5 recordings whose third hits a skippable
error yields a table whose rows are those of recordings 1, 2, 4, 5 in
order. -/
theorem c4_witness :
    ∃ df, build_features c4Extract c4Dataset = .ok df
      ∧ df.rows = (extractedRows c4Extract c4Dataset).map (fun d => rowDrop d dropList) :=
  c4_batch_skip c4Extract c4Dataset (by decide) (by decide)

/-- The loop returns rows only for successful extractions. -/
lemma extractLoop_rows_nil {α : Type} (extract : α → Except PyExc FeatRow) :
    ∀ (dataset : List (Recording α)),
      (∀ r ∈ dataset, ¬ (extract r.payload).isOk = true) →
      ∀ rows, extractLoop extract dataset = .ok rows → rows = []
  | [], _, rows, hrows => by
      cases hrows
      rfl
  | r :: rest, h, rows, hrows => by
      have hr := h r (List.mem_cons_self r rest)
      cases hx : extract r.payload with
      | ok d => rw [hx] at hr; exact absurd rfl hr
      | error e =>
          simp only [extractLoop, hx] at hrows
          by_cases hskip : skippable e = true
          · rw [if_pos hskip] at hrows
            exact extractLoop_rows_nil extract rest
              (fun r' hr' => h r' (List.mem_cons_of_mem r hr')) rows hrows
          · rw [if_neg hskip] at hrows
            cases hrows

/-- **C10** (confirmed).  If every recording of the batch is skipped
(in particular if the dataset is empty), `build_features` raises the
`KeyError` coming from the post-processing column drop on the empty
table, instead of returning an empty feature table; and it returns
normally only when at least one recording was successfully extracted. -/
theorem c10_empty_batch {α : Type} (extract : α → Except PyExc FeatRow)
    (dataset : List (Recording α)) :
    ((∀ r ∈ dataset, allSkipped (extract r.payload)) →
      build_features extract dataset = .error .keyError)
    ∧ (∀ df, build_features extract dataset = .ok df →
        ∃ r ∈ dataset, (extract r.payload).isOk = true) := by
  constructor
  · intro h
    have h1 : ∀ r ∈ dataset, okKeysContain (extract r.payload) dropList := by
      intro r hr
      have hs := h r hr
      cases hx : extract r.payload with
      | ok d =>
          try rw [hx] at hs
          exact hs.elim
      | error e =>
          try rw [hx] at hs
          try rw [hx]
          exact hs
    have hnil : extractedRows extract dataset = [] := by
      apply List.filterMap_eq_nil_iff.mpr
      intro r hr
      have hs := h r hr
      cases hx : extract r.payload with
      | ok d =>
          try rw [hx] at hs
          exact hs.elim
      | error e => simp [hx]
    have hbf : build_features extract dataset =
        dropColumns (mkDataFrame []) dropList := by
      unfold build_features
      rw [extractLoop_of_handled extract dataset h1, hnil]
    rw [hbf]
    rfl
  · intro df hdf
    by_contra hno
    push_neg at hno
    have hno' : ∀ r ∈ dataset, ¬ (extract r.payload).isOk = true := by
      intro r hr hok
      exact absurd hok (hno r hr)
    unfold build_features at hdf
    cases hloop : extractLoop extract dataset with
    | error e => rw [hloop] at hdf; cases hdf
    | ok rows =>
        rw [hloop] at hdf
        have := extractLoop_rows_nil extract dataset hno' rows hloop
        subst this
        revert hdf
        unfold dropColumns mkDataFrame
        simp [dropList, firstDedup, firstDedupAux]

/-- **C10 witness**: the empty dataset already triggers the `KeyError`
from the column drop. -/
theorem c10_witness :
    build_features c4Extract ([] : List (Recording ℕ)) = .error .keyError :=
  (c10_empty_batch c4Extract []).1 (by decide)

/-! ## Properties of the peak detector (C9) -/

/-- `plateauEnd` never moves left. -/
lemma plateauEnd_ge (x : List ℚ) (v : ℚ) :
    ∀ (fuel j : ℕ), j ≤ plateauEnd x v fuel j
  | 0, j => le_rfl
  | fuel + 1, j => by
      simp only [plateauEnd]
      split
      · exact le_trans (Nat.le_succ j) (plateauEnd_ge x v fuel (j + 1))
      · exact le_rfl

/-- `plateauEnd` stays within the interior bound it starts in. -/
lemma plateauEnd_le (x : List ℚ) (v : ℚ) :
    ∀ (fuel j : ℕ), j ≤ x.length - 1 → plateauEnd x v fuel j ≤ x.length - 1
  | 0, j, hj => hj
  | fuel + 1, j, hj => by
      simp only [plateauEnd]
      split
      · next hcond => exact plateauEnd_le x v fuel (j + 1) (by omega)
      · exact hj

/-- Every sample strictly before `plateauEnd` (from `j` on) equals the
plateau value. -/
lemma plateauEnd_plateau (x : List ℚ) (v : ℚ) :
    ∀ (fuel j k : ℕ), j ≤ k → k < plateauEnd x v fuel j → x.getD k 0 = v
  | 0, j, k, hjk, hk => by
      simp only [plateauEnd] at hk
      omega
  | fuel + 1, j, k, hjk, hk => by
      simp only [plateauEnd] at hk
      split at hk
      · next hcond =>
          rcases Nat.eq_or_lt_of_le hjk with rfl | hlt
          · exact hcond.2
          · exact plateauEnd_plateau x v fuel (j + 1) k hlt hk
      · omega

/-- Every index emitted by the local-maxima scan is an interior plateau
midpoint: at least the current scan position, interior to the signal, and
a (weak) local maximum. -/
lemma localMaxAux_mem (x : List ℚ) :
    ∀ (fuel i : ℕ), 1 ≤ i → ∀ m ∈ localMaxAux x fuel i,
      i ≤ m ∧ 1 ≤ m ∧ m + 2 ≤ x.length
      ∧ x.getD (m - 1) 0 ≤ x.getD m 0 ∧ x.getD (m + 1) 0 ≤ x.getD m 0
  | 0, i, _, m, hm => by cases hm
  | fuel + 1, i, hi, m, hm => by
      simp only [localMaxAux] at hm
      split at hm
      · next hint =>
          split at hm
          · next hrise =>
              split at hm
              · next hfall =>
                  set e := plateauEnd x (x.getD i 0) x.length (i + 1) with he
                  have he1 : i + 1 ≤ e := plateauEnd_ge x _ x.length (i + 1)
                  have he2 : e ≤ x.length - 1 :=
                    plateauEnd_le x _ x.length (i + 1) (by omega)
                  have hplat : ∀ k, i + 1 ≤ k → k < e → x.getD k 0 = x.getD i 0 :=
                    fun k h1 h2 => plateauEnd_plateau x _ x.length (i + 1) k h1 h2
                  rcases List.mem_cons.mp hm with rfl | hmrec
                  · -- the emitted midpoint
                    have hmid1 : i ≤ (i + (e - 1)) / 2 := by omega
                    have hmid2 : (i + (e - 1)) / 2 ≤ e - 1 := by omega
                    have hval : x.getD ((i + (e - 1)) / 2) 0 = x.getD i 0 := by
                      rcases Nat.eq_or_lt_of_le hmid1 with hmi | hmi
                      · rw [← hmi]
                      · exact hplat _ (by omega) (by omega)
                    refine ⟨hmid1, by omega, by omega, ?_, ?_⟩
                    · rcases Nat.eq_or_lt_of_le hmid1 with hmi | hmi
                      · rw [← hmi]
                        exact le_of_lt hrise
                      · have hleft : x.getD ((i + (e - 1)) / 2 - 1) 0 = x.getD i 0 := by
                          rcases Nat.eq_or_lt_of_le (show i ≤ (i + (e - 1)) / 2 - 1 by omega)
                            with hmi' | hmi'
                          · rw [← hmi']
                          · exact hplat _ (by omega) (by omega)
                        rw [hleft, hval]
                    · rcases Nat.eq_or_lt_of_le (show (i + (e - 1)) / 2 + 1 ≤ e by omega)
                        with hmi | hmi
                      · rw [hmi, hval]
                        exact le_of_lt hfall
                      · have hright : x.getD ((i + (e - 1)) / 2 + 1) 0 = x.getD i 0 :=
                          hplat _ (by omega) (by omega)
                        rw [hright, hval]
                  · have := localMaxAux_mem x fuel (e + 1) (by omega) m hmrec
                    exact ⟨by omega, this.2.1, this.2.2.1, this.2.2.2.1, this.2.2.2.2⟩
              · have := localMaxAux_mem x fuel (i + 1) (by omega) m hm
                exact ⟨by omega, this.2.1, this.2.2.1, this.2.2.2.1, this.2.2.2.2⟩
          · have := localMaxAux_mem x fuel (i + 1) (by omega) m hm
            exact ⟨by omega, this.2.1, this.2.2.1, this.2.2.2.1, this.2.2.2.2⟩
      · cases hm

/-- The local-maxima scan emits strictly increasing indices. -/
lemma localMaxAux_sorted (x : List ℚ) :
    ∀ (fuel i : ℕ), 1 ≤ i → List.Sorted (· < ·) (localMaxAux x fuel i)
  | 0, i, _ => List.sorted_nil
  | fuel + 1, i, hi => by
      simp only [localMaxAux]
      split
      · next hint =>
          split
          · next hrise =>
              split
              · next hfall =>
                  set e := plateauEnd x (x.getD i 0) x.length (i + 1) with he
                  have he1 : i + 1 ≤ e := plateauEnd_ge x _ x.length (i + 1)
                  refine List.sorted_cons.mpr ⟨fun b hb => ?_, localMaxAux_sorted x fuel (e + 1) (by omega)⟩
                  have := localMaxAux_mem x fuel (e + 1) (by omega) b hb
                  omega
              · exact localMaxAux_sorted x fuel (i + 1) (by omega)
          · exact localMaxAux_sorted x fuel (i + 1) (by omega)
      · exact List.sorted_nil

/-- Membership in an ordered insertion. -/
lemma mem_insOrd (r : ℕ → ℕ → Bool) (a : ℕ) :
    ∀ (l : List ℕ) (y : ℕ), y ∈ insOrd r a l ↔ y = a ∨ y ∈ l
  | [], y => by simp [insOrd]
  | b :: t, y => by
      simp only [insOrd]
      split
      · simp
      · rw [List.mem_cons, mem_insOrd r a t y, List.mem_cons]
        tauto

/-- The insertion sort is membership-preserving. -/
lemma mem_sortOrd (r : ℕ → ℕ → Bool) :
    ∀ (l : List ℕ) (y : ℕ), y ∈ sortOrd r l ↔ y ∈ l
  | [], y => Iff.rfl
  | a :: t, y => by
      simp only [sortOrd]
      rw [mem_insOrd, mem_sortOrd r t y, List.mem_cons]

/-- A position the distance-selection fold keeps was kept from the
start (the fold only clears keep flags). -/
lemma foldl_killStep_mono (peaks : List ℕ) (dist : ℕ) :
    ∀ (order : List ℕ) (keep : ℕ → Bool) (k : ℕ),
      (order.foldl (killStep peaks dist) keep) k = true → keep k = true
  | [], _, _, h => h
  | j :: t, keep, k, h => by
      have h1 : killStep peaks dist keep j k = true :=
        foldl_killStep_mono peaks dist t (killStep peaks dist keep j) k h
      unfold killStep at h1
      split at h1
      · dsimp only at h1
        split at h1
        · cases h1
        · exact h1
      · exact h1

/-- If the fold visits `j` and keeps it to the end, every other position
within `dist` of `j` ends cleared. -/
lemma foldl_killStep_kills (peaks : List ℕ) (dist : ℕ) :
    ∀ (order : List ℕ) (keep : ℕ → Bool) (j : ℕ), j ∈ order →
      (order.foldl (killStep peaks dist) keep) j = true →
      ∀ k, k ≠ j → Nat.dist (peaks.getD j 0) (peaks.getD k 0) < dist →
        (order.foldl (killStep peaks dist) keep) k = false
  | [], _, j, hj, _ => by cases hj
  | o :: t, keep, j, hj, hfin => by
      intro k hk hdist
      rcases List.mem_cons.mp hj with rfl | hjt
      · by_cases hkeep : keep j = true
        · have hkill : killStep peaks dist keep j k = false := by
            unfold killStep
            rw [if_pos hkeep, if_pos ⟨hk, hdist⟩]
          cases hfk : (List.foldl (killStep peaks dist) (killStep peaks dist keep j) t) k with
          | false => exact hfk
          | true =>
              have := foldl_killStep_mono peaks dist t (killStep peaks dist keep j) k hfk
              rw [hkill] at this
              cases this
        · have hid : killStep peaks dist keep j = keep := by
            unfold killStep
            rw [if_neg hkeep]
          rw [List.foldl_cons, hid] at hfin
          have := foldl_killStep_mono peaks dist t keep j hfin
          exact absurd this hkeep
      · exact foldl_killStep_kills peaks dist t (killStep peaks dist keep o) j hjt hfin
          k hk hdist

/-- Two distinct positions both kept by the distance selection are at
least `dist` apart. -/
lemma keepOfDistance_pairwise (peaks : List ℕ) (x : List ℚ) (dist : ℕ)
    (a b : ℕ) (ha : a < peaks.length) (hne : a ≠ b)
    (hka : keepOfDistance peaks x dist a = true)
    (hkb : keepOfDistance peaks x dist b = true) :
    dist ≤ Nat.dist (peaks.getD a 0) (peaks.getD b 0) := by
  by_contra hlt
  push_neg at hlt
  have hmem : a ∈ priorityOrder peaks x := by
    rw [priorityOrder, mem_sortOrd]
    exact List.mem_range.mpr ha
  have := foldl_killStep_kills peaks dist (priorityOrder peaks x) (fun _ => true) a hmem
    hka b (fun hba => hne hba.symm) hlt
  rw [keepOfDistance] at hkb
  rw [this] at hkb
  cases hkb

/-- Strict monotonicity of indexing into a strictly sorted list. -/
lemma getD_lt_getD_of_sorted (peaks : List ℕ) (hs : List.Sorted (· < ·) peaks)
    (a b : ℕ) (ha : a < peaks.length) (hb : b < peaks.length) (hab : a < b) :
    peaks.getD a 0 < peaks.getD b 0 := by
  rw [peaks.getD_eq_getElem 0 ha, peaks.getD_eq_getElem 0 hb]
  exact List.pairwise_iff_getElem.mp hs a b ha hb hab

/-- The distance selection returns strictly increasing peak positions. -/
lemma selectByDistance_sorted (peaks : List ℕ) (x : List ℚ) (dist : ℕ)
    (hs : List.Sorted (· < ·) peaks) :
    List.Sorted (· < ·) (selectByDistance peaks x dist) := by
  unfold selectByDistance
  apply List.pairwise_map.mpr
  have hrange : List.Pairwise (· < ·)
      ((List.range peaks.length).filter (fun k => keepOfDistance peaks x dist k)) :=
    List.Pairwise.filter _ (List.pairwise_lt_range _)
  refine hrange.imp_of_mem ?_
  intro a b hamem hbmem hab
  have ha : a < peaks.length := by
    have := List.mem_of_mem_filter hamem
    exact List.mem_range.mp this
  have hb : b < peaks.length := by
    have := List.mem_of_mem_filter hbmem
    exact List.mem_range.mp this
  exact getD_lt_getD_of_sorted peaks hs a b ha hb hab

/-- Inversion of membership in the selection result. -/
lemma mem_selectByDistance (peaks : List ℕ) (x : List ℚ) (dist : ℕ) (m : ℕ)
    (hm : m ∈ selectByDistance peaks x dist) :
    ∃ k, k < peaks.length ∧ keepOfDistance peaks x dist k = true
      ∧ m = peaks.getD k 0 ∧ m ∈ peaks := by
  unfold selectByDistance at hm
  rcases List.mem_map.mp hm with ⟨k, hk, hkm⟩
  have hk1 : k < peaks.length := List.mem_range.mp (List.mem_of_mem_filter hk)
  have hk2 : keepOfDistance peaks x dist k = true := by
    have := List.of_mem_filter hk
    simpa using this
  refine ⟨k, hk1, hk2, hkm.symm, ?_⟩
  rw [← hkm, peaks.getD_eq_getElem 0 hk1]
  exact List.getElem_mem hk1

/-- A `max`-fold dominates its starting value and every element. -/
lemma foldl_max_facts :
    ∀ (l : List ℚ) (a : ℚ), a ≤ l.foldl max a ∧ ∀ x ∈ l, x ≤ l.foldl max a
  | [], a => ⟨le_rfl, by simp⟩
  | b :: t, a => by
      have IH := foldl_max_facts t (max a b)
      simp only [List.foldl_cons]
      refine ⟨le_trans (le_max_left a b) IH.1, fun x hx => ?_⟩
      rcases List.mem_cons.mp hx with rfl | hxt
      · exact le_trans (le_max_right a x) IH.1
      · exact IH.2 x hxt

/-- `np.max` dominates every sample. -/
lemma le_listMax (l : List ℚ) (y : ℚ) (hy : y ∈ l) : y ≤ listMax l := by
  match l, hy with
  | a :: t, hy => exact (foldl_max_facts (a :: t) a).2 y hy

/-- Indexing the standardised signal is indexing the centred signal
divided by `np.std`. -/
lemma stdSignal_getD (sig : List ℚ) (i : ℕ) (hi : i < sig.length) :
    (stdSignal sig).getD i 0 =
      (((centered sig).getD i 0 : ℚ) : ℝ) / Real.sqrt ((variance sig : ℚ) : ℝ) := by
  have h1 : i < (stdSignal sig).length := by simpa [stdSignal] using hi
  have h2 : i < (centered sig).length := by simpa [centered] using hi
  rw [List.getD_eq_getElem _ _ h1, List.getD_eq_getElem _ _ h2]
  simp only [stdSignal, centered, List.getElem_map]
  rw [Rat.cast_sub]

/-- Every sample of the standardised signal is a centred sample divided
by `np.std`. -/
lemma mem_stdSignal (sig : List ℚ) (t : ℝ) (ht : t ∈ stdSignal sig) :
    ∃ cq ∈ centered sig, t = ((cq : ℚ) : ℝ) / Real.sqrt ((variance sig : ℚ) : ℝ) := by
  rcases List.mem_map.mp ht with ⟨s, hs, hst⟩
  refine ⟨(s - mean sig : ℚ), List.mem_map_of_mem _ hs, ?_⟩
  rw [← hst, Rat.cast_sub]

/-- Inversion of a successful `find_peaks` call. -/
lemma find_peaks_ok (x : List ℚ) (height distance : ℚ) (ps : List ℕ)
    (h : find_peaks x height distance = .ok ps) :
    ¬ distance < 1 ∧ ps = selectByDistance (heightFiltered x height) x ⌈distance⌉₊ := by
  unfold find_peaks at h
  split_ifs at h with hd
  refine ⟨hd, ?_⟩
  injection h with h'
  exact h'.symm

/-- Members of the height filter are local maxima over the threshold. -/
lemma mem_heightFiltered (x : List ℚ) (hmin : ℚ) (m : ℕ)
    (hm : m ∈ heightFiltered x hmin) :
    m ∈ localMaxima x ∧ hmin ≤ x.getD m 0 := by
  unfold heightFiltered at hm
  exact ⟨List.mem_of_mem_filter hm, by simpa using List.of_mem_filter hm⟩

/-- The height filter emits strictly increasing indices. -/
lemma heightFiltered_sorted (x : List ℚ) (hmin : ℚ) :
    List.Sorted (· < ·) (heightFiltered x hmin) :=
  List.Pairwise.filter _ (localMaxAux_sorted x x.length 1 le_rfl)

/-- **C9** (confirmed).  Whenever `detect_r_peaks` returns, the returned
sample indices are strictly increasing; any two consecutive indices are
at least `0.2 * fs` samples apart; and every returned index is an
interior (weak) local maximum of the z-score standardised signal whose
standardised height is at least half the standardised signal's global
maximum.  (The detector first z-score standardises the input; the
standardised signal is `stdSignal`.) -/
theorem c9_detect_r_peaks_contract (sig : List ℚ) (fs : ℚ) (ps : List ℕ)
    (h : detect_r_peaks sig fs = .ok ps) :
    List.Sorted (· < ·) ps
    ∧ List.Chain' (fun a b : ℕ => fs * (1 / 5) ≤ (b : ℚ) - (a : ℚ)) ps
    ∧ ∀ m ∈ ps, 1 ≤ m ∧ m + 2 ≤ sig.length
        ∧ (stdSignal sig).getD (m - 1) 0 ≤ (stdSignal sig).getD m 0
        ∧ (stdSignal sig).getD (m + 1) 0 ≤ (stdSignal sig).getD m 0
        ∧ ∀ t ∈ stdSignal sig, t * (1 / 2) ≤ (stdSignal sig).getD m 0 := by
  unfold detect_r_peaks at h
  split_ifs at h with hemp
  obtain ⟨hdist, hps⟩ := find_peaks_ok _ _ _ _ h
  have hPsorted : List.Sorted (· < ·)
      (heightFiltered (centered sig) (listMax (centered sig) * (1 / 2))) :=
    heightFiltered_sorted _ _
  have hsorted : List.Sorted (· < ·) ps := by
    rw [hps]
    exact selectByDistance_sorted _ _ _ hPsorted
  have hclen : (centered sig).length = sig.length := by simp [centered]
  have hmem : ∀ m ∈ ps,
      (1 ≤ m ∧ m + 2 ≤ sig.length
        ∧ (centered sig).getD (m - 1) 0 ≤ (centered sig).getD m 0
        ∧ (centered sig).getD (m + 1) 0 ≤ (centered sig).getD m 0)
      ∧ listMax (centered sig) * (1 / 2) ≤ (centered sig).getD m 0 := by
    intro m hm
    rw [hps] at hm
    obtain ⟨k, hk, hkeep, hmk, hmP⟩ := mem_selectByDistance _ _ _ m hm
    obtain ⟨hloc, hheight⟩ := mem_heightFiltered _ _ m hmP
    unfold localMaxima at hloc
    have hfacts := localMaxAux_mem (centered sig) (centered sig).length 1 le_rfl m hloc
    exact ⟨⟨hfacts.2.1, by omega, hfacts.2.2.2.1, hfacts.2.2.2.2⟩, hheight⟩
  have hpair : List.Pairwise (fun a b : ℕ => fs * (1 / 5) ≤ (b : ℚ) - (a : ℚ)) ps := by
    refine hsorted.imp_of_mem ?_
    intro a b hamem hbmem hab
    rw [hps] at hamem hbmem
    obtain ⟨k1, hk1, hkeep1, hak, _⟩ := mem_selectByDistance _ _ _ a hamem
    obtain ⟨k2, hk2, hkeep2, hbk, _⟩ := mem_selectByDistance _ _ _ b hbmem
    have hkne : k1 ≠ k2 := by
      intro hkk
      rw [hkk, ← hbk] at hak
      omega
    have hdd := keepOfDistance_pairwise _ _ _ k1 k2 hk1 hkne hkeep1 hkeep2
    rw [← hak, ← hbk] at hdd
    have hdsub : Nat.dist a b = b - a := Nat.dist_eq_sub_of_le (le_of_lt hab)
    calc fs * (1 / 5) ≤ (⌈fs * (1 / 5)⌉₊ : ℚ) := Nat.le_ceil _
      _ ≤ ((b - a : ℕ) : ℚ) := by exact_mod_cast hdsub ▸ hdd
      _ = (b : ℚ) - (a : ℚ) := Nat.cast_sub (le_of_lt hab)
  refine ⟨hsorted, hpair.chain', ?_⟩
  intro m hm
  obtain ⟨⟨hm1, hm2, hleft, hright⟩, hheight⟩ := hmem m hm
  have hm0 : m < sig.length := by omega
  have hml : m - 1 < sig.length := by omega
  have hmr : m + 1 < sig.length := by omega
  have hσ : (0 : ℝ) ≤ Real.sqrt ((variance sig : ℚ) : ℝ) := Real.sqrt_nonneg _
  refine ⟨hm1, hm2, ?_, ?_, ?_⟩
  · rw [stdSignal_getD sig (m - 1) hml, stdSignal_getD sig m hm0]
    exact div_le_div_of_nonneg_right (by exact_mod_cast hleft) hσ
  · rw [stdSignal_getD sig (m + 1) hmr, stdSignal_getD sig m hm0]
    exact div_le_div_of_nonneg_right (by exact_mod_cast hright) hσ
  · intro t ht
    obtain ⟨cq, hcq, rfl⟩ := mem_stdSignal sig t ht
    rw [stdSignal_getD sig m hm0]
    have h1 : cq * (1 / 2) ≤ (centered sig).getD m 0 :=
      le_trans (mul_le_mul_of_nonneg_right (le_listMax _ cq hcq) (by norm_num)) hheight
    have h2 : ((cq : ℚ) : ℝ) / Real.sqrt ((variance sig : ℚ) : ℝ) * (1 / 2) =
        (((cq * (1 / 2) : ℚ)) : ℝ) / Real.sqrt ((variance sig : ℚ) : ℝ) := by
      push_cast
      ring
    rw [h2]
    exact div_le_div_of_nonneg_right (by exact_mod_cast h1) hσ

set_option maxHeartbeats 2000000 in
/-- **C9 witness**: the detector contract at a concrete signal with two
clear beats (`fs = 10`, refractory distance 2 samples, peaks at samples 1
and 5). -/
theorem c9_witness :
    detect_r_peaks [0, 10, 0, 0, 0, 10, 0] 10 = .ok [1, 5]
    ∧ List.Sorted (· < ·) ([1, 5] : List ℕ) := by
  have hdet : detect_r_peaks [0, 10, 0, 0, 0, 10, 0] 10 = .ok [1, 5] := by
    norm_num [detect_r_peaks, find_peaks, centered, mean, listMax, max_def,
      localMaxima, localMaxAux, plateauEnd, heightFiltered, selectByDistance,
      keepOfDistance, priorityOrder, sortOrd, insOrd, killStep, Nat.dist,
      List.range_succ]
  exact ⟨hdet, (c9_detect_r_peaks_contract [0, 10, 0, 0, 0, 10, 0] 10 [1, 5] hdet).1⟩

end ECG
